import Mathlib

/-!
# rkdbg: a growable buffer of positioned debug texts

Shallow embedding of `src/rkdbg/rkdbg.h` (the part under `RK_DBG_IMPLEMENTATION`).

Modelling conventions.

* `int32_t` values are `Int`; the result of `int32_t` arithmetic is reduced to the
  two's-complement range by `wrapInt32`, the value a 32-bit register holds (C itself
  leaves signed overflow undefined).
* `size_t` values (`size`, `capacity`, indices) are `Nat`: the storage holds
  `capacity` records of 140 bytes each, so a counter can not come near `2 ^ 64`
  before the allocator has refused a request.
* A `char` is a `Nat`, the terminator is `0`, and `char text[129]` is a `List Nat`.
* The storage `rkDebugText *buffer` is `Option (List rkDebugText)`: `none` is the
  null pointer, `some cells` an allocated block of `cells.length` records.
* `calloc` and `realloc` are driven by an explicit outcome handed in by the caller
  of the model: whether the request is granted and, for `realloc`, the
  indeterminate contents of the fresh cells.
* `fmt` together with `args` is represented by `out`, the character sequence the
  formatting produces when nothing limits its length.
* A call whose C behaviour is undefined (a store through the null pointer or past
  the end of the block) yields `none`; `assert` is compiled in (no `NDEBUG`) and a
  failing one yields an error value.
-/

namespace Rkdbg

/-! ## Machine integers -/

/-- Reduction of an integer to the range of `int32_t` (two's complement). -/
def wrapInt32 (v : Int) : Int :=
  (v + 2147483648) % 4294967296 - 2147483648

/-! ## Constants and types -/

/-- Maximum length for the debug texts. -/
def RK_MAX_DBG_TXT_SIZE : Nat := 128

/-- Screen xy coordinates for the text to be drawn at (two `int32_t` fields). -/
structure rkDebugPosition where
  x : Int
  y : Int
deriving DecidableEq, Repr

/-- The debug text, `char text[RK_MAX_DBG_TXT_SIZE+1]`, and its screen position. -/
structure rkDebugText where
  text : List Nat
  position : rkDebugPosition
deriving DecidableEq, Repr

/-- The compound literal `RK_DBG_POS(xp, yp)`, with its two casts to `int32_t`. -/
def RK_DBG_POS (xp yp : Int) : rkDebugPosition :=
  { x := wrapInt32 xp, y := wrapInt32 yp }

/-- Starting screen coordinates of the text. -/
def RK_INIT_POS : rkDebugPosition := RK_DBG_POS 5 5

/-- Initial capacity of the overlay. -/
def RK_INIT_CAPACITY : Nat := 8

/-- The overlay record behind the handle. -/
structure rkDebugOverlay where
  buffer : Option (List rkDebugText)
  size : Nat
  capacity : Nat
  currPosition : rkDebugPosition
  fontSize : Int
deriving DecidableEq, Repr

/-- Ways a call can stop without a result. -/
inductive rkFault where
  | assertionFailed
  | invalidAccess
deriving DecidableEq, Repr

/-! ## The C library pieces the code relies on -/

/-- An all-zero `rkDebugText`, as `= { 0 }` or `calloc` produce it. -/
def zeroDebugText : rkDebugText :=
  { text := List.replicate (RK_MAX_DBG_TXT_SIZE + 1) 0, position := { x := 0, y := 0 } }

/-- `sizeof(rkDebugText)`: 129 text bytes, 3 padding bytes, two 4-byte integers. -/
def sizeofDebugText : Nat := 140

/-- `calloc(n, sizeof(rkDebugText))`: the null pointer when the request is refused,
else `n` zeroed records. -/
def calloc (granted : Bool) (n : Nat) : Option (List rkDebugText) :=
  if granted then some (List.replicate n zeroDebugText) else none

/-- `realloc(ptr, n * sizeof(rkDebugText))`: `none` as outcome is a refused request
(the null pointer comes back); `some junk` grants it, the old records are kept up to
the new length and the fresh cells hold whatever `junk` lists (zero records once
`junk` is used up). -/
def realloc (ptr : Option (List rkDebugText)) (n : Nat)
    (outcome : Option (List rkDebugText)) : Option (List rkDebugText) :=
  match outcome with
  | none => none
  | some junk => some ((ptr.getD [] ++ junk ++ List.replicate n zeroDebugText).take n)

/-- `vsnprintf(s, n, fmt, args)` on the array `s`, where `out` is the full formatted
output: at most `n - 1` characters are stored, followed by one terminator; the rest
of `s` is left as it was. Nothing is stored when `n = 0`. -/
def vsnprintf (s : List Nat) (n : Nat) (out : List Nat) : List Nat :=
  if n = 0 then s
  else
    let written := out.take (n - 1)
    written ++ 0 :: s.drop (written.length + 1)

/-- The `k` lowest-addressed bytes of a little-endian `int32_t` set to zero. -/
def zeroLowBytes (k : Nat) (v : Int) : Int :=
  let u := v % 4294967296
  wrapInt32 (u - u % (256 : Int) ^ (min k 4))

/-- The first `m` bytes of one record set to zero: text at offsets 0..128, padding at
129..131, `position.x` at 132..135, `position.y` at 136..139. -/
def zeroRecordBytes (m : Nat) (e : rkDebugText) : rkDebugText :=
  { text := List.replicate (min (min m (RK_MAX_DBG_TXT_SIZE + 1)) e.text.length) 0
      ++ e.text.drop (min m (RK_MAX_DBG_TXT_SIZE + 1)),
    position := { x := zeroLowBytes (m - 132) e.position.x,
                  y := zeroLowBytes (m - 136) e.position.y } }

/-- `memset(cells, 0x00, n)`: the first `n` bytes of the block set to zero. -/
def memset : List rkDebugText → Nat → List rkDebugText
  | [], _ => []
  | e :: es, n => zeroRecordBytes n e :: memset es (n - sizeofDebugText)

/-- The C string held in a character array: the characters before the first
terminator. -/
def cString (text : List Nat) : List Nat :=
  text.takeWhile (fun c => c != 0)

/-! ## rkdbg implementation -/

/-- Creates a new debug text element. -/
def rkNewDebugText (position : rkDebugPosition) (out : List Nat) : rkDebugText :=
  let debugText : rkDebugText := zeroDebugText
  let debugText : rkDebugText :=
    { debugText with text := vsnprintf debugText.text RK_MAX_DBG_TXT_SIZE out }
  { debugText with position := position }

/-- Ensures that there is enough space in `buffer` to contain another debug text.
`outcome` is what the allocator does if `realloc` is called. -/
def rkDebugOverlayEnsureSpace (debugOverlay : rkDebugOverlay)
    (outcome : Option (List rkDebugText)) : rkDebugOverlay :=
  if debugOverlay.size < debugOverlay.capacity then debugOverlay
  else
    let capacity := 3 * debugOverlay.capacity / 2
    { debugOverlay with
      capacity := capacity,
      buffer := realloc debugOverlay.buffer capacity outcome }

/-- Creates a new debug overlay with the specified font size. `grantRecord` and
`grantBuffer` are the outcomes of the first and of the second `calloc`; the result
`none` is the `NULL` return. -/
def rkCreateDebugOverlay (grantRecord grantBuffer : Bool) (fontSize : Int) :
    Option rkDebugOverlay :=
  if !grantRecord then none
  else
    some { buffer := calloc grantBuffer RK_INIT_CAPACITY,
           size := 0,
           capacity := RK_INIT_CAPACITY,
           currPosition := RK_INIT_POS,
           fontSize := fontSize }

/-- Clears all the elements in the debug overlay. `none`: `memset` was handed the
null pointer or a length beyond the block. -/
def rkClearDebugOverlay (debugOverlay : rkDebugOverlay) : Option rkDebugOverlay :=
  let cleared : rkDebugOverlay :=
    { debugOverlay with currPosition := RK_INIT_POS, size := 0 }
  match cleared.buffer with
  | none => none
  | some cells =>
    if cleared.capacity ≤ sizeofDebugText * cells.length then
      some { cleared with buffer := some (memset cells cleared.capacity) }
    else none

/-- Adds new debug text to the debug overlay. `none`: the store to
`buffer[size]` went through the null pointer or past the end of the block. -/
def rkAddDebugTextArgs (debugOverlay : rkDebugOverlay) (out : List Nat)
    (outcome : Option (List rkDebugText)) : Option rkDebugOverlay :=
  let ensured := rkDebugOverlayEnsureSpace debugOverlay outcome
  match ensured.buffer with
  | none => none
  | some cells =>
    if ensured.size < cells.length then
      some { ensured with
        buffer := some (cells.set ensured.size (rkNewDebugText ensured.currPosition out)),
        size := ensured.size + 1,
        currPosition :=
          { ensured.currPosition with
            y := wrapInt32 (ensured.currPosition.y + ensured.fontSize) } }
    else none

/-- Adds new debug text in the C-formatted style: forwards to `rkAddDebugTextArgs`. -/
def rkAddDebugTextFormat (debugOverlay : rkDebugOverlay) (out : List Nat)
    (outcome : Option (List rkDebugText)) : Option rkDebugOverlay :=
  rkAddDebugTextArgs debugOverlay out outcome

/-- Gets the debug text at index `idx`; the `assert` is kept. -/
def rkDebugTextAt (debugOverlay : rkDebugOverlay) (idx : Nat) : Except rkFault rkDebugText :=
  if idx < debugOverlay.size then
    match debugOverlay.buffer with
    | none => .error .invalidAccess
    | some cells =>
      match cells[idx]? with
      | none => .error .invalidAccess
      | some e => .ok e
  else .error .assertionFailed

/-- Gets the number of debug text elements contained within the debug overlay. -/
def rkDebugOverlaySize (debugOverlay : rkDebugOverlay) : Nat :=
  debugOverlay.size

/-! ## Call sequences and reachable states -/

/-- One append whose allocator request, if it makes one, is granted: the formatted
output and the contents found in freshly obtained cells. -/
abbrev Append := List Nat × List rkDebugText

/-- Successive calls of `rkAddDebugTextArgs`, first call first. -/
def appendAll (debugOverlay : rkDebugOverlay) : List Append → Option rkDebugOverlay
  | [] => some debugOverlay
  | a :: rest =>
    match rkAddDebugTextArgs debugOverlay a.1 (some a.2) with
    | none => none
    | some next => appendAll next rest

/-- Overlay states a program can get to through the interface, under every
behaviour of the allocator. -/
inductive Reachable : rkDebugOverlay → Prop where
  | create (grantRecord grantBuffer : Bool) (fontSize : Int) (o : rkDebugOverlay) :
      rkCreateDebugOverlay grantRecord grantBuffer fontSize = some o → Reachable o
  | add (o next : rkDebugOverlay) (out : List Nat) (outcome : Option (List rkDebugText)) :
      Reachable o → rkAddDebugTextArgs o out outcome = some next → Reachable next
  | clear (o next : rkDebugOverlay) :
      Reachable o → rkClearDebugOverlay o = some next → Reachable next

/-- The block is allocated, holds `capacity` records, and the entries fit in it. -/
def WellFormed (o : rkDebugOverlay) : Prop :=
  ∃ cells, o.buffer = some cells ∧ cells.length = o.capacity ∧
    o.size ≤ o.capacity ∧ RK_INIT_CAPACITY ≤ o.capacity

/-- A state with the null pointer as storage: what `rkCreateDebugOverlay` hands out
when its second `calloc` is refused. -/
def NoStorage (o : rkDebugOverlay) : Prop :=
  o.buffer = none ∧ o.size = 0 ∧ o.capacity = RK_INIT_CAPACITY

/-- The text field of an entry is 129 bytes long, its C string has at most 128
characters and the byte right after the C string is the terminator. -/
def TextBounded (e : rkDebugText) : Prop :=
  e.text.length = RK_MAX_DBG_TXT_SIZE + 1 ∧ (cString e.text).length ≤ RK_MAX_DBG_TXT_SIZE ∧
    e.text[(cString e.text).length]? = some 0

/-! ## Sample states -/

/-- The overlay `rkCreateDebugOverlay(10)` returns when both requests are granted. -/
def sampleFresh : rkDebugOverlay :=
  { buffer := some (List.replicate 8 zeroDebugText),
    size := 0,
    capacity := 8,
    currPosition := { x := 5, y := 5 },
    fontSize := 10 }

/-- The state of `sampleFresh` after appending the text "HP". -/
def sampleOne : rkDebugOverlay :=
  { buffer := some ((List.replicate 8 zeroDebugText).set 0
      (rkNewDebugText { x := 5, y := 5 } [72, 80])),
    size := 1,
    capacity := 8,
    currPosition := { x := 5, y := 15 },
    fontSize := 10 }

/-- The overlay after eight appends of "HP" to `sampleFresh`: size and capacity are
both 8. -/
def sampleFull : rkDebugOverlay :=
  (appendAll sampleFresh (List.replicate 8 ([72, 80], []))).getD sampleFresh

/-- The overlay after a ninth append of "HP", the one that grows the storage. -/
def sampleNine : rkDebugOverlay :=
  (rkAddDebugTextArgs sampleFull [72, 80] (some [])).getD sampleFull

/-- The overlay after appending the ten characters "0123456789" to `sampleFresh`. -/
def sampleStale : rkDebugOverlay :=
  (rkAddDebugTextArgs sampleFresh [48, 49, 50, 51, 52, 53, 54, 55, 56, 57] none).getD sampleFresh

/-- The overlay `rkClearDebugOverlay` makes of `sampleStale`. -/
def sampleStaleCleared : rkDebugOverlay :=
  (rkClearDebugOverlay sampleStale).getD sampleStale

/-- The capacities a growing overlay goes through: `8`, then each time the former
value times 3, halved, rounded down. -/
def capacitySequence : Nat → Nat
  | 0 => 8
  | i + 1 => 3 * capacitySequence i / 2

/-- The overlay after appending the three characters `a`, terminator, `b` to
`sampleFresh`. -/
def sampleEmbedded : rkDebugOverlay :=
  (rkAddDebugTextArgs sampleFresh [97, 0, 98] none).getD sampleFresh

/-! ## Integer and allocator lemmas -/

theorem wrapInt32_add_left (a b : Int) : wrapInt32 (wrapInt32 a + b) = wrapInt32 (a + b) := by
  unfold wrapInt32; omega

theorem wrapInt32_idem (a : Int) : wrapInt32 (wrapInt32 a) = wrapInt32 a := by
  unfold wrapInt32; omega

theorem RK_INIT_POS_eq : RK_INIT_POS = { x := 5, y := 5 } := by decide

theorem realloc_granted_length (ptr : Option (List rkDebugText)) (n : Nat) (junk : List rkDebugText) :
    ∃ cells, realloc ptr n (some junk) = some cells ∧ cells.length = n := by
  refine ⟨_, rfl, ?_⟩
  simp [List.length_take]; omega

theorem realloc_granted_getElem? (old junk : List rkDebugText) (n i : Nat) (hi : i < old.length)
    (hn : old.length ≤ n) :
    ∀ cells, realloc (some old) n (some junk) = some cells → cells[i]? = old[i]? := by
  intro cells h
  simp only [realloc, Option.getD_some, Option.some.injEq] at h
  subst h
  rw [List.getElem?_take, if_pos (by omega), List.append_assoc, List.getElem?_append_left hi]

/-- What `rkDebugOverlayEnsureSpace` returns on a state whose block is allocated with
`capacity` records. -/
theorem rkDebugOverlayEnsureSpace_wellFormed (o : rkDebugOverlay) (junk : List rkDebugText)
    (h : WellFormed o) :
    ∃ cells' cells, o.buffer = some cells ∧
      rkDebugOverlayEnsureSpace o (some junk) =
        { o with buffer := some cells',
                 capacity := if o.size < o.capacity then o.capacity else 3 * o.capacity / 2 } ∧
      cells'.length = (if o.size < o.capacity then o.capacity else 3 * o.capacity / 2) ∧
      o.size < cells'.length ∧
      ∀ i, i < o.size → cells'[i]? = cells[i]? := by
  obtain ⟨cells, hb, hlen, hs, hc⟩ := h
  unfold RK_INIT_CAPACITY at hc
  by_cases hlt : o.size < o.capacity
  · refine ⟨cells, cells, hb, ?_, ?_, ?_, fun _ _ => rfl⟩
    · simp [rkDebugOverlayEnsureSpace, hlt, ← hb]
    · simp [hlt, hlen]
    · omega
  · obtain ⟨cells', hr, hlen'⟩ := realloc_granted_length o.buffer (3 * o.capacity / 2) junk
    refine ⟨cells', cells, hb, ?_, ?_, ?_, ?_⟩
    · simp [rkDebugOverlayEnsureSpace, hlt, hr]
    · simp [hlt, hlen']
    · omega
    · intro i hi
      rw [hb] at hr
      exact realloc_granted_getElem? cells junk _ i (by omega) (by omega) cells' hr

/-! ## The text field -/

theorem cString_append_terminator (w rest : List Nat) :
    cString (w ++ 0 :: rest) = cString w := by
  induction w with
  | nil => simp [cString]
  | cons c w ih =>
    unfold cString at ih ⊢
    by_cases hc : c = 0
    · simp [List.takeWhile, hc]
    · simp [List.takeWhile, hc, ih]

theorem cString_of_no_terminator (w : List Nat) (h : ∀ c ∈ w, c ≠ 0) : cString w = w := by
  unfold cString
  rw [List.takeWhile_eq_self_iff]
  intro c hc
  simpa using h c hc

theorem cString_length_le (w : List Nat) : (cString w).length ≤ w.length := by
  unfold cString
  exact (List.takeWhile_sublist _).length_le

theorem getElem?_cString_length (l : List Nat) (h : 0 ∈ l) :
    l[(cString l).length]? = some 0 := by
  induction l with
  | nil => simp at h
  | cons c l ih =>
    by_cases hc : c = 0
    · simp [cString, List.takeWhile, hc]
    · have hmem : 0 ∈ l := by
        rcases List.mem_cons.1 h with h0 | h0
        · exact absurd h0.symm hc
        · exact h0
      have := ih hmem
      unfold cString at this ⊢
      rw [List.takeWhile_cons]
      simpa [hc] using this

theorem rkNewDebugText_text (position : rkDebugPosition) (out : List Nat) :
    (rkNewDebugText position out).text =
      out.take 127 ++ 0 :: List.replicate (128 - (out.take 127).length) 0 := by
  have h : (rkNewDebugText position out).text =
      vsnprintf (List.replicate (128 + 1) 0) 128 out := rfl
  rw [h]
  unfold vsnprintf
  rw [if_neg (by decide)]
  simp only [List.drop_replicate, Nat.add_sub_cancel, Nat.add_sub_add_right]

theorem rkNewDebugText_position (position : rkDebugPosition) (out : List Nat) :
    (rkNewDebugText position out).position = position := rfl

theorem rkNewDebugText_text_length (position : rkDebugPosition) (out : List Nat) :
    (rkNewDebugText position out).text.length = RK_MAX_DBG_TXT_SIZE + 1 := by
  rw [rkNewDebugText_text]
  simp [RK_MAX_DBG_TXT_SIZE]
  omega

theorem rkNewDebugText_cString (position : rkDebugPosition) (out : List Nat) :
    cString (rkNewDebugText position out).text = cString (out.take 127) := by
  rw [rkNewDebugText_text, cString_append_terminator]

/-- A formatted output that is a C string is stored cut down to its first 127
characters. -/
theorem rkNewDebugText_cString_of_no_terminator (position : rkDebugPosition) (out : List Nat)
    (hstr : ∀ c ∈ out, c ≠ 0) :
    cString (rkNewDebugText position out).text = out.take 127 := by
  rw [rkNewDebugText_cString]
  exact cString_of_no_terminator _ (fun c hc => hstr c (List.mem_of_mem_take hc))

/-! ## One append -/

theorem rkDebugTextAt_of_cells (o : rkDebugOverlay) (cells : List rkDebugText) (i : Nat)
    (hb : o.buffer = some cells) (hi : i < o.size) :
    rkDebugTextAt o i =
      match cells[i]? with
      | none => .error .invalidAccess
      | some e => .ok e := by
  simp [rkDebugTextAt, hi, hb]

/-- One granted append on a well-formed state: it returns, and the new state is
described field by field. -/
theorem rkAddDebugTextArgs_wellFormed (o : rkDebugOverlay) (out : List Nat)
    (junk : List rkDebugText) (h : WellFormed o) :
    ∃ next, rkAddDebugTextArgs o out (some junk) = some next ∧ WellFormed next ∧
      next.size = o.size + 1 ∧
      next.capacity = (if o.size < o.capacity then o.capacity else 3 * o.capacity / 2) ∧
      next.fontSize = o.fontSize ∧
      next.currPosition =
        { x := o.currPosition.x, y := wrapInt32 (o.currPosition.y + o.fontSize) } ∧
      rkDebugTextAt next o.size = .ok (rkNewDebugText o.currPosition out) ∧
      ∀ i, i < o.size → rkDebugTextAt next i = rkDebugTextAt o i := by
  obtain ⟨cells', cells, hb, he, hlen', hlt, hkeep⟩ :=
    rkDebugOverlayEnsureSpace_wellFormed o junk h
  obtain ⟨cells0, hb0, hlen0, hs, hc⟩ := h
  have hcells : cells0 = cells := by rw [hb0] at hb; exact Option.some.inj hb
  subst hcells
  refine ⟨{ buffer := some (cells'.set o.size (rkNewDebugText o.currPosition out)),
            size := o.size + 1,
            capacity := if o.size < o.capacity then o.capacity else 3 * o.capacity / 2,
            currPosition :=
              { x := o.currPosition.x, y := wrapInt32 (o.currPosition.y + o.fontSize) },
            fontSize := o.fontSize }, ?_, ?_, ?_, ?_, ?_, ?_, ?_, ?_⟩
  · simp only [rkAddDebugTextArgs, he]
    rw [if_pos hlt]
  · refine ⟨_, rfl, ?_, ?_, ?_⟩
    · simp [hlen']
    · show o.size + 1 ≤ _
      rw [← hlen']; exact hlt
    · show RK_INIT_CAPACITY ≤ (if o.size < o.capacity then o.capacity else 3 * o.capacity / 2)
      unfold RK_INIT_CAPACITY at hc ⊢
      split <;> omega
  · rfl
  · rfl
  · rfl
  · rfl
  · rw [rkDebugTextAt_of_cells _ _ _ rfl (by show o.size < o.size + 1; omega)]
    simp [List.getElem?_set_self, hlt]
  · intro i hi
    rw [rkDebugTextAt_of_cells _ _ _ rfl (by show i < o.size + 1; omega),
      rkDebugTextAt_of_cells o cells0 i hb0 hi]
    rw [List.getElem?_set_ne (by omega), hkeep i hi]

/-! ## Create, clear and the reachable states -/

theorem memset_length (cells : List rkDebugText) (n : Nat) :
    (memset cells n).length = cells.length := by
  induction cells generalizing n with
  | nil => rfl
  | cons e es ih => simp [memset, ih]

theorem rkCreateDebugOverlay_wellFormed (fontSize : Int) :
    ∃ o, rkCreateDebugOverlay true true fontSize = some o ∧ WellFormed o ∧ o.size = 0 ∧
      o.capacity = RK_INIT_CAPACITY ∧ o.currPosition = RK_INIT_POS ∧ o.fontSize = fontSize := by
  refine ⟨_, rfl, ⟨_, rfl, ?_, ?_, ?_⟩, rfl, rfl, rfl, rfl⟩
  · simp
  · exact Nat.zero_le _
  · exact Nat.le_refl _

theorem rkClearDebugOverlay_wellFormed (o : rkDebugOverlay) (h : WellFormed o) :
    ∃ next, rkClearDebugOverlay o = some next ∧ WellFormed next ∧ next.size = 0 ∧
      next.capacity = o.capacity ∧ next.currPosition = RK_INIT_POS ∧
      next.fontSize = o.fontSize := by
  obtain ⟨cells, hb, hlen, hs, hc⟩ := h
  have hfit : o.capacity ≤ sizeofDebugText * cells.length := by
    rw [hlen]; unfold sizeofDebugText; omega
  refine ⟨{ o with currPosition := RK_INIT_POS, size := 0,
                   buffer := some (memset cells o.capacity) }, ?_, ?_, rfl, rfl, rfl, rfl⟩
  · simp only [rkClearDebugOverlay, hb]
    rw [if_pos hfit]
  · exact ⟨_, rfl, by simp [memset_length, hlen], Nat.zero_le _, hc⟩

theorem rkAddDebugTextArgs_noStorage (o : rkDebugOverlay) (out : List Nat)
    (outcome : Option (List rkDebugText)) (h : NoStorage o) :
    rkAddDebugTextArgs o out outcome = none := by
  obtain ⟨hb, hs, hc⟩ := h
  have hlt : o.size < o.capacity := by rw [hs, hc]; decide
  simp [rkAddDebugTextArgs, rkDebugOverlayEnsureSpace, hlt, hb]

theorem rkClearDebugOverlay_noStorage (o : rkDebugOverlay) (h : NoStorage o) :
    rkClearDebugOverlay o = none := by
  simp [rkClearDebugOverlay, h.1]

/-- The allocator outcome only matters through a granted request: an append that
returns under some outcome returns the same state under a granted one. -/
theorem rkAddDebugTextArgs_granted (o next : rkDebugOverlay) (out : List Nat)
    (outcome : Option (List rkDebugText))
    (h : rkAddDebugTextArgs o out outcome = some next) :
    rkAddDebugTextArgs o out (some (outcome.getD [])) = some next := by
  cases outcome with
  | some junk => exact h
  | none =>
    by_cases hlt : o.size < o.capacity
    · simpa [rkAddDebugTextArgs, rkDebugOverlayEnsureSpace, hlt] using h
    · simp [rkAddDebugTextArgs, rkDebugOverlayEnsureSpace, hlt, realloc] at h

/-- Every reachable state either has well-formed storage or is the state without
storage. -/
theorem Reachable.wellFormed_or_noStorage {o : rkDebugOverlay} (h : Reachable o) :
    WellFormed o ∨ NoStorage o := by
  induction h with
  | create grantRecord grantBuffer fontSize o hc =>
    cases grantRecord with
    | false => simp [rkCreateDebugOverlay] at hc
    | true =>
      cases grantBuffer with
      | true =>
        obtain ⟨o', ho', hwf, -⟩ := rkCreateDebugOverlay_wellFormed fontSize
        rw [hc] at ho'
        cases ho'
        exact Or.inl hwf
      | false =>
        simp only [rkCreateDebugOverlay, Bool.not_true, Bool.false_eq_true, if_false,
          Option.some.injEq] at hc
        subst hc
        exact Or.inr ⟨rfl, rfl, rfl⟩
  | add o next out outcome _ hadd ih =>
    rcases ih with hwf | hno
    · obtain ⟨next', hn, hwf', -⟩ :=
        rkAddDebugTextArgs_wellFormed o out (outcome.getD []) hwf
      rw [rkAddDebugTextArgs_granted o next out outcome hadd] at hn
      cases hn
      exact Or.inl hwf'
    · rw [rkAddDebugTextArgs_noStorage o out outcome hno] at hadd
      cases hadd
  | clear o next _ hclear ih =>
    rcases ih with hwf | hno
    · obtain ⟨next', hn, hwf', -⟩ := rkClearDebugOverlay_wellFormed o hwf
      rw [hclear] at hn
      cases hn
      exact Or.inl hwf'
    · rw [rkClearDebugOverlay_noStorage o hno] at hclear
      cases hclear

/-! ## Successive appends -/

/-- Successive granted appends on a well-formed state whose cursor `y` is an
`int32_t` value: all of them return, the entries present before are kept, and the
`k`-th new entry is built from the `k`-th output at the cursor advanced `k` times. -/
theorem appendAll_wellFormed (calls : List Append) :
    ∀ o : rkDebugOverlay, WellFormed o → wrapInt32 o.currPosition.y = o.currPosition.y →
    ∃ last, appendAll o calls = some last ∧ WellFormed last ∧
      last.size = o.size + calls.length ∧
      last.fontSize = o.fontSize ∧
      last.currPosition =
        { x := o.currPosition.x,
          y := wrapInt32 (o.currPosition.y + (calls.length : Int) * o.fontSize) } ∧
      (∀ i, i < o.size → rkDebugTextAt last i = rkDebugTextAt o i) ∧
      ∀ k (hk : k < calls.length), rkDebugTextAt last (o.size + k) =
        .ok (rkNewDebugText
          { x := o.currPosition.x, y := wrapInt32 (o.currPosition.y + (k : Int) * o.fontSize) }
          calls[k].1) := by
  induction calls with
  | nil =>
    intro o hwf hy
    refine ⟨o, rfl, hwf, rfl, rfl, ?_, fun _ _ => rfl, ?_⟩
    · simp [hy]
    · intro k hk; simp at hk
  | cons a rest ih =>
    intro o hwf hy
    obtain ⟨next, hn, hwf1, hsz1, -, hfs1, hpos1, hnew, hkeep1⟩ :=
      rkAddDebugTextArgs_wellFormed o a.1 a.2 hwf
    have hy1 : wrapInt32 next.currPosition.y = next.currPosition.y := by
      rw [hpos1]; exact wrapInt32_idem _
    obtain ⟨last, hl, hwf2, hsz2, hfs2, hpos2, hkeep2, hent2⟩ := ih next hwf1 hy1
    have hstep : ∀ j : Int, wrapInt32 (next.currPosition.y + j * next.fontSize) =
        wrapInt32 (o.currPosition.y + (j + 1) * o.fontSize) := by
      intro j
      rw [hpos1, hfs1]
      show wrapInt32 (wrapInt32 (o.currPosition.y + o.fontSize) + j * o.fontSize) = _
      rw [wrapInt32_add_left]
      congr 1; ring
    have hx : next.currPosition.x = o.currPosition.x := by rw [hpos1]
    refine ⟨last, ?_, hwf2, ?_, ?_, ?_, ?_, ?_⟩
    · simp only [appendAll, hn, hl]
    · rw [hsz2, hsz1, List.length_cons]; omega
    · rw [hfs2, hfs1]
    · rw [hpos2, hx, hstep, List.length_cons]
      push_cast; rfl
    · intro i hi
      rw [hkeep2 i (by omega), hkeep1 i hi]
    · intro k hk
      cases k with
      | zero =>
        rw [Nat.add_zero, hkeep2 o.size (by omega), hnew]
        simp [hy]
      | succ j =>
        have hj : j < rest.length := by simpa using hk
        have := hent2 j hj
        rw [hx, hstep, hsz1] at this
        rw [show o.size + (j + 1) = o.size + 1 + j by omega, this]
        simp

/-! ## Helper facts used by the claims -/

theorem sampleFresh_created : rkCreateDebugOverlay true true 10 = some sampleFresh := rfl

theorem sampleFresh_add : rkAddDebugTextArgs sampleFresh [72, 80] none = some sampleOne := rfl

theorem sampleEmbedded_add :
    rkAddDebugTextArgs sampleFresh [97, 0, 98] none = some sampleEmbedded := rfl

theorem sampleFresh_reachable : Reachable sampleFresh :=
  .create true true 10 sampleFresh sampleFresh_created

theorem sampleOne_reachable : Reachable sampleOne :=
  .add sampleFresh sampleOne [72, 80] none sampleFresh_reachable sampleFresh_add

theorem rkAddDebugTextArgs_of_lt (o : rkDebugOverlay) (out : List Nat)
    (outcome outcome' : Option (List rkDebugText)) (hlt : o.size < o.capacity) :
    rkAddDebugTextArgs o out outcome = rkAddDebugTextArgs o out outcome' := by
  simp [rkAddDebugTextArgs, rkDebugOverlayEnsureSpace, hlt]

theorem rkDebugTextAt_of_size_le (o : rkDebugOverlay) (idx : Nat) (h : o.size ≤ idx) :
    rkDebugTextAt o idx = .error .assertionFailed := by
  simp [rkDebugTextAt, Nat.not_lt.2 h]

/-- An append that returns from a reachable state: the state had well-formed
storage and the new state is the one `rkAddDebugTextArgs_wellFormed` describes. -/
theorem Reachable.add_returns {o next : rkDebugOverlay} (h : Reachable o) (out : List Nat)
    (outcome : Option (List rkDebugText))
    (hadd : rkAddDebugTextArgs o out outcome = some next) :
    WellFormed o ∧ WellFormed next ∧ next.size = o.size + 1 ∧
      rkDebugTextAt next o.size = .ok (rkNewDebugText o.currPosition out) ∧
      ∀ i, i < o.size → rkDebugTextAt next i = rkDebugTextAt o i := by
  rcases h.wellFormed_or_noStorage with hwf | hno
  · obtain ⟨next', hn, hwf', hsz, -, -, -, hnew, hkeep⟩ :=
      rkAddDebugTextArgs_wellFormed o out (outcome.getD []) hwf
    rw [rkAddDebugTextArgs_granted o next out outcome hadd] at hn
    cases hn
    exact ⟨hwf, hwf', hsz, hnew, hkeep⟩
  · rw [rkAddDebugTextArgs_noStorage o out outcome hno] at hadd
    cases hadd

theorem rkNewDebugText_textBounded (position : rkDebugPosition) (out : List Nat) :
    TextBounded (rkNewDebugText position out) := by
  refine ⟨rkNewDebugText_text_length position out, ?_, ?_⟩
  · rw [rkNewDebugText_cString]
    have h1 := cString_length_le (out.take 127)
    have h2 : (out.take 127).length ≤ 127 := by simp
    unfold RK_MAX_DBG_TXT_SIZE
    omega
  · apply getElem?_cString_length
    rw [rkNewDebugText_text]
    simp

theorem Reachable.textBounded {o : rkDebugOverlay} (h : Reachable o) :
    ∀ idx e, rkDebugTextAt o idx = .ok e → TextBounded e := by
  induction h with
  | create grantRecord grantBuffer fontSize o hc =>
    intro idx e he
    have hsz : o.size = 0 := by
      cases grantRecord with
      | false => simp [rkCreateDebugOverlay] at hc
      | true =>
        simp only [rkCreateDebugOverlay, Bool.not_true, Bool.false_eq_true, if_false,
          Option.some.injEq] at hc
        subst hc; rfl
    rw [rkDebugTextAt_of_size_le o idx (by omega)] at he
    cases he
  | add o next out outcome hr hadd ih =>
    intro idx e he
    obtain ⟨-, -, hsz, hnew, hkeep⟩ := hr.add_returns out outcome hadd
    rcases Nat.lt_trichotomy idx o.size with hlt | heq | hgt
    · rw [hkeep idx hlt] at he
      exact ih idx e he
    · subst heq
      rw [hnew] at he
      cases he
      exact rkNewDebugText_textBounded _ _
    · rw [rkDebugTextAt_of_size_le next idx (by omega)] at he
      cases he
  | clear o next hr hclear _ =>
    intro idx e he
    have hsz : next.size = 0 := by
      rcases hr.wellFormed_or_noStorage with hwf | hno
      · obtain ⟨next', hn, -, hsz, -⟩ := rkClearDebugOverlay_wellFormed o hwf
        rw [hclear] at hn
        cases hn
        exact hsz
      · rw [rkClearDebugOverlay_noStorage o hno] at hclear
        cases hclear
    rw [rkDebugTextAt_of_size_le next idx (by omega)] at he
    cases he

theorem sampleFresh_wellFormed : WellFormed sampleFresh :=
  ⟨_, rfl, by simp [sampleFresh], by decide, by decide⟩

/-- The scenario of the specification: font size 10, "HP: 100" and "MP: 50" are
appended, the overlay is cleared, "Score: 0" is appended. -/
theorem scenario_hp_mp_score :
    ∃ o a b c d, rkCreateDebugOverlay true true 10 = some o ∧
      rkAddDebugTextArgs o [72, 80, 58, 32, 49, 48, 48] none = some a ∧
      (rkDebugTextAt a 0).map (fun e => (cString e.text, e.position)) =
        .ok ([72, 80, 58, 32, 49, 48, 48], { x := 5, y := 5 }) ∧
      rkAddDebugTextArgs a [77, 80, 58, 32, 53, 48] none = some b ∧
      (rkDebugTextAt b 1).map (fun e => (cString e.text, e.position)) =
        .ok ([77, 80, 58, 32, 53, 48], { x := 5, y := 15 }) ∧
      rkClearDebugOverlay b = some c ∧ rkDebugOverlaySize c = 0 ∧
      rkAddDebugTextArgs c [83, 99, 111, 114, 101, 58, 32, 48] none = some d ∧
      (rkDebugTextAt d 0).map (fun e => (cString e.text, e.position)) =
        .ok ([83, 99, 111, 114, 101, 58, 32, 48], { x := 5, y := 5 }) :=
  ⟨_, _, _, _, _, rfl, rfl, rfl, rfl, rfl, rfl, rfl, rfl, rfl⟩

/-! ## Claims -/

/-- C1: after `n` successive appends on a freshly created overlay (every request
granted, no clear in between), for every `k < n` the call `rkDebugTextAt(k)` returns an
entry whose position is `(5, 5 + k * fontSize)`, the `y` value reduced to `int32_t`. -/
theorem C1_kth_entry_position (fontSize : Int) (calls : List Append) :
    ∃ o last, rkCreateDebugOverlay true true fontSize = some o ∧
      appendAll o calls = some last ∧
      ∀ k, k < calls.length → ∃ e, rkDebugTextAt last k = .ok e ∧
        e.position = { x := 5, y := wrapInt32 (5 + (k : Int) * fontSize) } := by
  obtain ⟨o, hc, hwf, hsz, -, hpos, hfs⟩ := rkCreateDebugOverlay_wellFormed fontSize
  rw [RK_INIT_POS_eq] at hpos
  obtain ⟨last, hl, -, -, -, -, -, hent⟩ :=
    appendAll_wellFormed calls o hwf (by rw [hpos]; decide)
  refine ⟨o, last, hc, hl, ?_⟩
  intro k hk
  have := hent k hk
  rw [hsz, Nat.zero_add, hpos, hfs] at this
  exact ⟨_, this, rfl⟩

/-- C2: from a freshly created overlay and any number of granted appends,
`rkClearDebugOverlay` returns a state whose `rkDebugOverlaySize` is 0, and the next
append, whatever the allocator would do, returns a state whose entry 0 has the
position `(5, 5)`. -/
theorem C2_clear_then_append (fontSize : Int) (calls : List Append) (out : List Nat)
    (outcome : Option (List rkDebugText)) :
    ∃ o filled cleared next e, rkCreateDebugOverlay true true fontSize = some o ∧
      appendAll o calls = some filled ∧
      rkClearDebugOverlay filled = some cleared ∧
      rkDebugOverlaySize cleared = 0 ∧
      rkAddDebugTextArgs cleared out outcome = some next ∧
      rkDebugTextAt next 0 = .ok e ∧
      e.position = { x := 5, y := 5 } := by
  obtain ⟨o, hc, hwf, -, -, hpos, -⟩ := rkCreateDebugOverlay_wellFormed fontSize
  rw [RK_INIT_POS_eq] at hpos
  obtain ⟨filled, hl, hwf1, -⟩ := appendAll_wellFormed calls o hwf (by rw [hpos]; decide)
  obtain ⟨cleared, hcl, hwf2, hsz2, -, hpos2, -⟩ := rkClearDebugOverlay_wellFormed filled hwf1
  rw [RK_INIT_POS_eq] at hpos2
  obtain ⟨next, hn, -, -, -, -, -, hnew, -⟩ := rkAddDebugTextArgs_wellFormed cleared out [] hwf2
  have hlt : cleared.size < cleared.capacity := by
    obtain ⟨_, -, -, -, hcap⟩ := hwf2
    unfold RK_INIT_CAPACITY at hcap
    omega
  rw [hsz2, hpos2] at hnew
  refine ⟨o, filled, cleared, next, _, hc, hl, hcl, hsz2, ?_, hnew, rfl⟩
  rw [rkAddDebugTextArgs_of_lt cleared out outcome (some []) hlt, hn]

/-- C3 (the code at the failing input): a formatted output of 129 characters `a`
appended to a fresh overlay is stored as 127 characters, not as its first 128. -/
theorem C3_stores_127_characters :
    ∃ o next e, rkCreateDebugOverlay true true 10 = some o ∧
      rkAddDebugTextArgs o (List.replicate 129 97) none = some next ∧
      rkDebugTextAt next 0 = .ok e ∧
      cString e.text = List.replicate 127 97 ∧
      cString e.text ≠ (List.replicate 129 97).take 128 := by
  have h : ∀ p, cString (rkNewDebugText p (List.replicate 129 97)).text =
      List.replicate 127 97 := by
    intro p
    rw [rkNewDebugText_cString, List.take_replicate]
    exact cString_of_no_terminator _ (fun c hc => by rw [List.eq_of_mem_replicate hc]; decide)
  obtain ⟨next, hn, -, -, -, -, -, hnew, -⟩ :=
    rkAddDebugTextArgs_wellFormed sampleFresh (List.replicate 129 97) []
      sampleFresh_wellFormed
  refine ⟨sampleFresh, next, _, rfl, ?_, hnew, h _, ?_⟩
  · rw [rkAddDebugTextArgs_of_lt sampleFresh _ none (some []) (by decide), hn]
  · rw [h]
    intro heq
    have hlen := congrArg List.length heq
    simp at hlen

/-- C4: an append from a reachable state whose formatted output is shorter than 128
characters stores exactly that output in the new entry (the one at the index of the
former entry count): the text field holds the characters of the output, all of them
and in order, followed by terminators only, so read as a C string the field and the
output agree, and the C string is the whole output when the output has no terminator
among its characters. -/
theorem C4_short_text_stored_exactly (o next : rkDebugOverlay) (out : List Nat)
    (outcome : Option (List rkDebugText)) (hr : Reachable o)
    (hadd : rkAddDebugTextArgs o out outcome = some next)
    (hlen : out.length < RK_MAX_DBG_TXT_SIZE) :
    ∃ e, rkDebugTextAt next (rkDebugOverlaySize o) = .ok e ∧
      e.text = out ++ List.replicate (RK_MAX_DBG_TXT_SIZE + 1 - out.length) 0 ∧
      cString e.text = cString out ∧
      ((∀ c ∈ out, c ≠ 0) → cString e.text = out) := by
  obtain ⟨-, -, -, hnew, -⟩ := hr.add_returns out outcome hadd
  unfold RK_MAX_DBG_TXT_SIZE at hlen ⊢
  have htake : out.take 127 = out := List.take_of_length_le (by omega)
  refine ⟨_, hnew, ?_, ?_, ?_⟩
  · rw [rkNewDebugText_text, htake,
      show 128 + 1 - out.length = (128 - out.length) + 1 by omega, List.replicate_succ]
  · rw [rkNewDebugText_cString, htake]
  · intro hstr
    rw [rkNewDebugText_cString, htake]
    exact cString_of_no_terminator out hstr

/-- Witness of C4: appending the three characters `a`, terminator, `b` (what
"a%cb" with the argument 0 formats to) to the fresh sample overlay. -/
theorem C4_short_text_stored_exactly_witness :
    Reachable sampleFresh ∧
      rkAddDebugTextArgs sampleFresh [97, 0, 98] none = some sampleEmbedded ∧
      ([97, 0, 98] : List Nat).length < RK_MAX_DBG_TXT_SIZE ∧
      ∃ e, rkDebugTextAt sampleEmbedded (rkDebugOverlaySize sampleFresh) = .ok e ∧
        e.text = [97, 0, 98] ++ List.replicate (RK_MAX_DBG_TXT_SIZE + 1 - 3) 0 ∧
        cString e.text = cString [97, 0, 98] ∧
        ((∀ c ∈ ([97, 0, 98] : List Nat), c ≠ 0) → cString e.text = [97, 0, 98]) :=
  ⟨sampleFresh_reachable, sampleEmbedded_add, by decide,
    C4_short_text_stored_exactly sampleFresh sampleEmbedded [97, 0, 98] none
      sampleFresh_reachable sampleEmbedded_add (by decide)⟩

/-- C5: after the granted appends `calls` on a fresh overlay, `rkDebugOverlaySize`
is the number of appends and `rkDebugTextAt(k)` is the entry built from the `k`-th
output at the `k`-th cursor position, for every `k`. -/
theorem C5_all_entries_in_order (fontSize : Int) (calls : List Append) :
    ∃ o last, rkCreateDebugOverlay true true fontSize = some o ∧
      appendAll o calls = some last ∧
      rkDebugOverlaySize last = calls.length ∧
      ∀ k (hk : k < calls.length), rkDebugTextAt last k =
        .ok (rkNewDebugText { x := 5, y := wrapInt32 (5 + (k : Int) * fontSize) } calls[k].1) := by
  obtain ⟨o, hc, hwf, hsz, -, hpos, hfs⟩ := rkCreateDebugOverlay_wellFormed fontSize
  rw [RK_INIT_POS_eq] at hpos
  obtain ⟨last, hl, -, hsz1, -, -, -, hent⟩ :=
    appendAll_wellFormed calls o hwf (by rw [hpos]; decide)
  refine ⟨o, last, hc, hl, ?_, ?_⟩
  · show last.size = _
    rw [hsz1, hsz, Nat.zero_add]
  · intro k hk
    have := hent k hk
    rw [hsz, Nat.zero_add, hpos, hfs] at this
    exact this

/-- C6: in every reachable state `rkDebugTextAt` yields an entry exactly when
`idx < rkDebugOverlaySize`; below the size it is the record stored at `idx`, and from
the size on the call fails its assertion and yields no entry. -/
theorem C6_lookup_iff_below_size (o : rkDebugOverlay) (idx : Nat) (hr : Reachable o) :
    ((∃ e, rkDebugTextAt o idx = .ok e) ↔ idx < rkDebugOverlaySize o) ∧
    (idx < rkDebugOverlaySize o →
      ∃ cells e, o.buffer = some cells ∧ cells[idx]? = some e ∧ rkDebugTextAt o idx = .ok e) ∧
    (rkDebugOverlaySize o ≤ idx → rkDebugTextAt o idx = .error .assertionFailed) := by
  have hbelow : idx < o.size →
      ∃ cells e, o.buffer = some cells ∧ cells[idx]? = some e ∧ rkDebugTextAt o idx = .ok e := by
    intro hlt
    rcases hr.wellFormed_or_noStorage with hwf | hno
    · obtain ⟨cells, hb, hlen, hs, -⟩ := hwf
      have hi : idx < cells.length := by omega
      refine ⟨cells, cells[idx], hb, List.getElem?_eq_getElem hi, ?_⟩
      rw [rkDebugTextAt_of_cells o cells idx hb hlt, List.getElem?_eq_getElem hi]
    · rw [hno.2.1] at hlt
      exact absurd hlt (Nat.not_lt_zero _)
  refine ⟨⟨?_, ?_⟩, hbelow, rkDebugTextAt_of_size_le o idx⟩
  · rintro ⟨e, he⟩
    by_contra hge
    rw [rkDebugTextAt_of_size_le o idx (Nat.not_lt.1 hge)] at he
    cases he
  · intro hlt
    obtain ⟨_, e, -, -, he⟩ := hbelow hlt
    exact ⟨e, he⟩

/-- Witness of C6: index 0 of the sample overlay holding one entry. -/
theorem C6_lookup_iff_below_size_witness :
    Reachable sampleOne ∧
    ((∃ e, rkDebugTextAt sampleOne 0 = .ok e) ↔ 0 < rkDebugOverlaySize sampleOne) ∧
    (0 < rkDebugOverlaySize sampleOne →
      ∃ cells e, sampleOne.buffer = some cells ∧ cells[0]? = some e ∧
        rkDebugTextAt sampleOne 0 = .ok e) ∧
    (rkDebugOverlaySize sampleOne ≤ 0 → rkDebugTextAt sampleOne 0 = .error .assertionFailed) :=
  ⟨sampleOne_reachable, C6_lookup_iff_below_size sampleOne 0 sampleOne_reachable⟩

/-- C7 (the code at the failing input): when the overlay record is granted and the
entry storage is refused, `rkCreateDebugOverlay(10)` still returns a handle, to an
overlay whose `buffer` is the null pointer. -/
theorem C7_handle_without_storage :
    rkCreateDebugOverlay true false 10 =
      some { buffer := none, size := 0, capacity := 8,
             currPosition := { x := 5, y := 5 }, fontSize := 10 } := by
  decide

/-- C8: every overlay `rkCreateDebugOverlay(fontSize)` returns has entry count 0,
capacity 8, cursor `(5, 5)` and stored font size `fontSize`. -/
theorem C8_created_fields (grantRecord grantBuffer : Bool) (fontSize : Int)
    (o : rkDebugOverlay)
    (h : rkCreateDebugOverlay grantRecord grantBuffer fontSize = some o) :
    rkDebugOverlaySize o = 0 ∧ o.capacity = 8 ∧ o.currPosition = { x := 5, y := 5 } ∧
      o.fontSize = fontSize := by
  cases grantRecord with
  | false => simp [rkCreateDebugOverlay] at h
  | true =>
    simp only [rkCreateDebugOverlay, Bool.not_true, Bool.false_eq_true, if_false,
      Option.some.injEq] at h
    subst h
    exact ⟨rfl, rfl, RK_INIT_POS_eq, rfl⟩

/-- Witness of C8: `rkCreateDebugOverlay(10)` with both requests granted. -/
theorem C8_created_fields_witness :
    rkCreateDebugOverlay true true 10 = some sampleFresh ∧
    rkDebugOverlaySize sampleFresh = 0 ∧ sampleFresh.capacity = 8 ∧
      sampleFresh.currPosition = { x := 5, y := 5 } ∧ sampleFresh.fontSize = 10 :=
  ⟨sampleFresh_created, C8_created_fields true true 10 sampleFresh sampleFresh_created⟩

/-- C9: in every reachable state the entry count is at most the capacity. -/
theorem C9_size_le_capacity (o : rkDebugOverlay) (hr : Reachable o) :
    o.size ≤ o.capacity := by
  rcases hr.wellFormed_or_noStorage with hwf | hno
  · obtain ⟨_, -, -, hs, -⟩ := hwf
    exact hs
  · rw [hno.2.1]
    exact Nat.zero_le _

/-- Witness of C9: the sample overlay holding one entry. -/
theorem C9_size_le_capacity_witness :
    Reachable sampleOne ∧ sampleOne.size ≤ sampleOne.capacity :=
  ⟨sampleOne_reachable, C9_size_le_capacity sampleOne sampleOne_reachable⟩

/-- C10: from a reachable state with allocated storage, an append whose allocator
request (if any) is granted returns for every formatted output, with the entry count
one higher; and in every reachable state every entry has a 129-byte text field whose
C string has at most 128 characters and is followed by a terminator inside the
field. -/
theorem C10_never_rejected_text_bounded (o : rkDebugOverlay) (hr : Reachable o) :
    (o.buffer.isSome → ∀ (out : List Nat) (junk : List rkDebugText),
      ∃ next, rkAddDebugTextArgs o out (some junk) = some next ∧
        rkDebugOverlaySize next = rkDebugOverlaySize o + 1) ∧
    (∀ idx e, rkDebugTextAt o idx = .ok e →
      e.text.length = 129 ∧ (cString e.text).length ≤ 128 ∧
        e.text[(cString e.text).length]? = some 0) := by
  refine ⟨?_, hr.textBounded⟩
  intro hb out junk
  rcases hr.wellFormed_or_noStorage with hwf | hno
  · obtain ⟨next, hn, -, hsz, -⟩ := rkAddDebugTextArgs_wellFormed o out junk hwf
    exact ⟨next, hn, hsz⟩
  · rw [hno.1] at hb
    cases hb

/-- Witness of C10: the sample overlay holding one entry. -/
theorem C10_never_rejected_text_bounded_witness :
    Reachable sampleOne ∧
    (sampleOne.buffer.isSome → ∀ (out : List Nat) (junk : List rkDebugText),
      ∃ next, rkAddDebugTextArgs sampleOne out (some junk) = some next ∧
        rkDebugOverlaySize next = rkDebugOverlaySize sampleOne + 1) ∧
    (∀ idx e, rkDebugTextAt sampleOne idx = .ok e →
      e.text.length = 129 ∧ (cString e.text).length ≤ 128 ∧
        e.text[(cString e.text).length]? = some 0) :=
  ⟨sampleOne_reachable, C10_never_rejected_text_bounded sampleOne sampleOne_reachable⟩

/-! ## More facts about single calls -/

theorem Reachable.appendAll_reachable (calls : List Append) :
    ∀ {o last : rkDebugOverlay}, Reachable o → appendAll o calls = some last →
      Reachable last := by
  induction calls with
  | nil =>
    intro o last hr h
    simp only [appendAll, Option.some.injEq] at h
    subst h
    exact hr
  | cons a rest ih =>
    intro o last hr h
    simp only [appendAll] at h
    cases hn : rkAddDebugTextArgs o a.1 (some a.2) with
    | none => rw [hn] at h; cases h
    | some next =>
      rw [hn] at h
      exact ih (.add o next a.1 (some a.2) hr hn) h

theorem sampleFull_appended :
    appendAll sampleFresh (List.replicate 8 ([72, 80], [])) = some sampleFull := rfl

theorem sampleFull_add :
    rkAddDebugTextArgs sampleFull [72, 80] (some []) = some sampleNine := rfl

theorem sampleFull_size_capacity : sampleFull.size = 8 ∧ sampleFull.capacity = 8 :=
  ⟨rfl, rfl⟩

theorem sampleNine_size_capacity : sampleNine.size = 9 ∧ sampleNine.capacity = 12 :=
  ⟨rfl, rfl⟩

theorem sampleFull_reachable : Reachable sampleFull :=
  Reachable.appendAll_reachable _ sampleFresh_reachable sampleFull_appended

/-- The record fields after an append that returns from a reachable state. -/
theorem Reachable.add_fields {o next : rkDebugOverlay} (h : Reachable o) (out : List Nat)
    (outcome : Option (List rkDebugText))
    (hadd : rkAddDebugTextArgs o out outcome = some next) :
    next.capacity = (if o.size < o.capacity then o.capacity else 3 * o.capacity / 2) ∧
      next.fontSize = o.fontSize ∧
      next.currPosition =
        { x := o.currPosition.x, y := wrapInt32 (o.currPosition.y + o.fontSize) } := by
  obtain ⟨hwf, -⟩ := h.add_returns out outcome hadd
  obtain ⟨next', hn, -, -, hcap, hfs, hpos, -⟩ :=
    rkAddDebugTextArgs_wellFormed o out (outcome.getD []) hwf
  rw [rkAddDebugTextArgs_granted o next out outcome hadd] at hn
  cases hn
  exact ⟨hcap, hfs, hpos⟩

/-- A clear that returns from a reachable state. -/
theorem Reachable.clear_returns {o next : rkDebugOverlay} (h : Reachable o)
    (hclear : rkClearDebugOverlay o = some next) :
    WellFormed o ∧ WellFormed next ∧ next.size = 0 ∧ next.capacity = o.capacity ∧
      next.currPosition = RK_INIT_POS ∧ next.fontSize = o.fontSize := by
  rcases h.wellFormed_or_noStorage with hwf | hno
  · obtain ⟨next', hn, hwf', hrest⟩ := rkClearDebugOverlay_wellFormed o hwf
    rw [hclear] at hn
    cases hn
    exact ⟨hwf, hwf', hrest⟩
  · rw [rkClearDebugOverlay_noStorage o hno] at hclear
    cases hclear

/-! ## Claims, continued -/

/-- C11: an append that returns from a reachable state stores the new entry, at the
index of the former entry count, with the cursor position held before the call; the
cursor `y` afterwards is the former `y` plus `fontSize` reduced to `int32_t`, and the
cursor `x` and the stored `fontSize` are unchanged. -/
theorem C11_append_advances_cursor (o next : rkDebugOverlay) (out : List Nat)
    (outcome : Option (List rkDebugText)) (hr : Reachable o)
    (hadd : rkAddDebugTextArgs o out outcome = some next) :
    (∃ e, rkDebugTextAt next (rkDebugOverlaySize o) = .ok e ∧ e.position = o.currPosition) ∧
    next.currPosition.y = wrapInt32 (o.currPosition.y + o.fontSize) ∧
    next.currPosition.x = o.currPosition.x ∧
    next.fontSize = o.fontSize := by
  obtain ⟨-, -, -, hnew, -⟩ := hr.add_returns out outcome hadd
  obtain ⟨-, hfs, hpos⟩ := hr.add_fields out outcome hadd
  refine ⟨⟨_, hnew, rfl⟩, ?_, ?_, hfs⟩
  · rw [hpos]
  · rw [hpos]

/-- Witness of C11: appending "HP" to the fresh sample overlay. -/
theorem C11_append_advances_cursor_witness :
    Reachable sampleFresh ∧ rkAddDebugTextArgs sampleFresh [72, 80] none = some sampleOne ∧
    (∃ e, rkDebugTextAt sampleOne (rkDebugOverlaySize sampleFresh) = .ok e ∧
      e.position = sampleFresh.currPosition) ∧
    sampleOne.currPosition.y = wrapInt32 (sampleFresh.currPosition.y + sampleFresh.fontSize) ∧
    sampleOne.currPosition.x = sampleFresh.currPosition.x ∧
    sampleOne.fontSize = sampleFresh.fontSize :=
  ⟨sampleFresh_reachable, sampleFresh_add,
    C11_append_advances_cursor sampleFresh sampleOne [72, 80] none sampleFresh_reachable
      sampleFresh_add⟩

/-- C12: a clear that returns from a reachable state leaves the capacity, the stored
`fontSize` and the length of the storage block as they were; the entry count becomes
0 and the cursor `(5, 5)`. -/
theorem C12_clear_keeps_capacity_fontSize (o next : rkDebugOverlay) (hr : Reachable o)
    (hclear : rkClearDebugOverlay o = some next) :
    next.capacity = o.capacity ∧ next.fontSize = o.fontSize ∧
    next.buffer.map List.length = o.buffer.map List.length ∧
    rkDebugOverlaySize next = 0 ∧ next.currPosition = { x := 5, y := 5 } := by
  obtain ⟨hwf, hwf', hsz, hcap, hpos, hfs⟩ := hr.clear_returns hclear
  refine ⟨hcap, hfs, ?_, hsz, by rw [hpos, RK_INIT_POS_eq]⟩
  obtain ⟨cells, hb, hlen, -⟩ := hwf
  obtain ⟨cells', hb', hlen', -⟩ := hwf'
  rw [hb, hb', Option.map_some', Option.map_some', hlen, hlen', hcap]

/-- C13: an append that returns from a reachable state leaves the capacity as it
was when the entry count was below it, sets it to `3 * capacity / 2` (rounded down)
when the entry count had reached it, and never lowers it. -/
theorem C13_capacity_after_append (o next : rkDebugOverlay) (out : List Nat)
    (outcome : Option (List rkDebugText)) (hr : Reachable o)
    (hadd : rkAddDebugTextArgs o out outcome = some next) :
    (o.size < o.capacity → next.capacity = o.capacity) ∧
    (o.size = o.capacity → next.capacity = 3 * o.capacity / 2) ∧
    o.capacity ≤ next.capacity := by
  obtain ⟨hcap, -⟩ := hr.add_fields out outcome hadd
  refine ⟨?_, ?_, ?_⟩
  · intro hlt
    rw [hcap, if_pos hlt]
  · intro heq
    rw [hcap, if_neg (by omega)]
  · rw [hcap]
    split <;> omega

/-- Witness of C13: the ninth append to the sample overlay, capacity 8 to 12. -/
theorem C13_capacity_after_append_witness :
    Reachable sampleFull ∧ rkAddDebugTextArgs sampleFull [72, 80] (some []) = some sampleNine ∧
    sampleFull.size = sampleFull.capacity ∧ sampleNine.capacity = 12 ∧
    (sampleFull.size < sampleFull.capacity → sampleNine.capacity = sampleFull.capacity) ∧
    (sampleFull.size = sampleFull.capacity →
      sampleNine.capacity = 3 * sampleFull.capacity / 2) ∧
    sampleFull.capacity ≤ sampleNine.capacity :=
  ⟨sampleFull_reachable, sampleFull_add, rfl, rfl,
    C13_capacity_after_append sampleFull sampleNine [72, 80] (some []) sampleFull_reachable
      sampleFull_add⟩

/-- C14: after an append that returns from a reachable state, `rkDebugTextAt(i)`
returns for every `i` below the former entry count the same record (text and
position) as before the call, whether or not the storage was grown. -/
theorem C14_append_keeps_entries (o next : rkDebugOverlay) (out : List Nat)
    (outcome : Option (List rkDebugText)) (i : Nat) (hr : Reachable o)
    (hadd : rkAddDebugTextArgs o out outcome = some next)
    (hi : i < rkDebugOverlaySize o) :
    rkDebugTextAt next i = rkDebugTextAt o i ∧ ∃ e, rkDebugTextAt o i = .ok e := by
  obtain ⟨hwf, -, -, -, hkeep⟩ := hr.add_returns out outcome hadd
  refine ⟨hkeep i hi, ?_⟩
  obtain ⟨cells, hb, hlen, hs, -⟩ := hwf
  have hlt : i < cells.length := by
    have : i < o.size := hi
    omega
  refine ⟨cells[i], ?_⟩
  rw [rkDebugTextAt_of_cells o cells i hb hi, List.getElem?_eq_getElem hlt]

/-- Witness of C14: entry 3 of the sample overlay across the append that grows it. -/
theorem C14_append_keeps_entries_witness :
    Reachable sampleFull ∧ rkAddDebugTextArgs sampleFull [72, 80] (some []) = some sampleNine ∧
    3 < rkDebugOverlaySize sampleFull ∧
    rkDebugTextAt sampleNine 3 = rkDebugTextAt sampleFull 3 ∧
    ∃ e, rkDebugTextAt sampleFull 3 = .ok e :=
  ⟨sampleFull_reachable, sampleFull_add, by decide,
    C14_append_keeps_entries sampleFull sampleNine [72, 80] (some []) 3 sampleFull_reachable
      sampleFull_add (by decide)⟩

theorem sampleStale_add :
    rkAddDebugTextArgs sampleFresh [48, 49, 50, 51, 52, 53, 54, 55, 56, 57] none =
      some sampleStale := rfl

theorem sampleStale_clear : rkClearDebugOverlay sampleStale = some sampleStaleCleared := rfl

theorem sampleStale_reachable : Reachable sampleStale :=
  .add sampleFresh sampleStale _ none sampleFresh_reachable sampleStale_add

set_option maxRecDepth 10000 in
/-- The `memset` of `capacity = 8` bytes in `rkClearDebugOverlay` leaves the ninth and
tenth character of the old text in the first record of the storage. -/
theorem sampleStaleCleared_first_record :
    (sampleStaleCleared.buffer.bind (fun cells => cells[0]?)).map (fun e => e.text.take 12) =
      some [0, 0, 0, 0, 0, 0, 0, 0, 56, 57, 0, 0] := by decide

/-- Witness of C12: clearing the sample overlay that holds "0123456789". -/
theorem C12_clear_keeps_capacity_fontSize_witness :
    Reachable sampleStale ∧ rkClearDebugOverlay sampleStale = some sampleStaleCleared ∧
    sampleStaleCleared.capacity = sampleStale.capacity ∧
    sampleStaleCleared.fontSize = sampleStale.fontSize ∧
    sampleStaleCleared.buffer.map List.length = sampleStale.buffer.map List.length ∧
    rkDebugOverlaySize sampleStaleCleared = 0 ∧
    sampleStaleCleared.currPosition = { x := 5, y := 5 } :=
  ⟨sampleStale_reachable, sampleStale_clear,
    C12_clear_keeps_capacity_fontSize sampleStale sampleStaleCleared sampleStale_reachable
      sampleStale_clear⟩

/-- C15: for a reachable state `s` that `rkClearDebugOverlay` turns into `c`, granted
appends of the same formatted outputs to `c` and to a fresh
`rkCreateDebugOverlay(s.fontSize)`, whatever the allocator puts into fresh cells in
either run, give the same entry count and the same result of `rkDebugTextAt` at every
index. -/
theorem C15_clear_acts_as_fresh (s c : rkDebugOverlay) (callsA callsB : List Append)
    (hr : Reachable s) (hclear : rkClearDebugOverlay s = some c)
    (hout : callsA.map Prod.fst = callsB.map Prod.fst) :
    ∃ fresh a b, rkCreateDebugOverlay true true s.fontSize = some fresh ∧
      appendAll c callsA = some a ∧ appendAll fresh callsB = some b ∧
      rkDebugOverlaySize a = rkDebugOverlaySize b ∧
      ∀ idx, rkDebugTextAt a idx = rkDebugTextAt b idx := by
  obtain ⟨-, hwfc, hszc, -, hposc, hfsc⟩ := hr.clear_returns hclear
  obtain ⟨fresh, hcr, hwff, hszf, -, hposf, hfsf⟩ := rkCreateDebugOverlay_wellFormed s.fontSize
  rw [RK_INIT_POS_eq] at hposc hposf
  obtain ⟨a, ha, -, hsza, -, -, -, henta⟩ :=
    appendAll_wellFormed callsA c hwfc (by rw [hposc]; decide)
  obtain ⟨b, hb, -, hszb, -, -, -, hentb⟩ :=
    appendAll_wellFormed callsB fresh hwff (by rw [hposf]; decide)
  have hlen : callsA.length = callsB.length := by
    have := congrArg List.length hout
    simpa using this
  rw [hszc, Nat.zero_add] at hsza
  rw [hszf, Nat.zero_add] at hszb
  refine ⟨fresh, a, b, hcr, ha, hb, ?_, ?_⟩
  · show a.size = b.size
    rw [hsza, hszb, hlen]
  · intro idx
    by_cases hidx : idx < callsA.length
    · have hidx' : idx < callsB.length := hlen ▸ hidx
      have hfst : callsA[idx].1 = callsB[idx].1 := by
        have h1 : (callsA.map Prod.fst)[idx]? = (callsB.map Prod.fst)[idx]? := by rw [hout]
        simpa [List.getElem?_map, List.getElem?_eq_getElem hidx,
          List.getElem?_eq_getElem hidx'] using h1
      have h1 := henta idx hidx
      have h2 := hentb idx hidx'
      rw [hszc, Nat.zero_add, hposc, hfsc] at h1
      rw [hszf, Nat.zero_add, hposf, hfsf] at h2
      rw [h1, h2, hfst]
    · rw [rkDebugTextAt_of_size_le a idx (by omega),
        rkDebugTextAt_of_size_le b idx (by omega)]

/-- Witness of C15: "HP" appended after clearing the sample overlay whose storage
still holds old characters, against "HP" appended to a fresh overlay. -/
theorem C15_clear_acts_as_fresh_witness :
    Reachable sampleStale ∧ rkClearDebugOverlay sampleStale = some sampleStaleCleared ∧
    ([([72, 80], [])] : List Append).map Prod.fst = ([([72, 80], [zeroDebugText])] : List Append).map Prod.fst ∧
    ∃ fresh a b, rkCreateDebugOverlay true true sampleStale.fontSize = some fresh ∧
      appendAll sampleStaleCleared [([72, 80], [])] = some a ∧
      appendAll fresh [([72, 80], [zeroDebugText])] = some b ∧
      rkDebugOverlaySize a = rkDebugOverlaySize b ∧
      ∀ idx, rkDebugTextAt a idx = rkDebugTextAt b idx :=
  ⟨sampleStale_reachable, sampleStale_clear, rfl,
    C15_clear_acts_as_fresh sampleStale sampleStaleCleared [([72, 80], [])]
      [([72, 80], [zeroDebugText])] sampleStale_reachable sampleStale_clear rfl⟩

/-- C16: in every reachable state the capacity is at least 8; after
`rkDebugOverlayEnsureSpace`, under every allocator outcome, the entry count is below
the capacity, and whenever the storage pointer is not null the block holds more
records than the entry count, so `buffer[size]` lies inside it; with storage present
and the request granted the pointer is not null. -/
theorem C16_room_for_one_more (o : rkDebugOverlay) (outcome : Option (List rkDebugText))
    (hr : Reachable o) :
    8 ≤ o.capacity ∧
    (rkDebugOverlayEnsureSpace o outcome).size < (rkDebugOverlayEnsureSpace o outcome).capacity ∧
    (∀ cells, (rkDebugOverlayEnsureSpace o outcome).buffer = some cells →
      cells.length = (rkDebugOverlayEnsureSpace o outcome).capacity ∧
      (rkDebugOverlayEnsureSpace o outcome).size < cells.length) ∧
    (o.buffer.isSome → ∀ junk, ∃ cells,
      (rkDebugOverlayEnsureSpace o (some junk)).buffer = some cells ∧
      (rkDebugOverlayEnsureSpace o (some junk)).size < cells.length) := by
  rcases hr.wellFormed_or_noStorage with hwf | hno
  · have hwf0 := hwf
    obtain ⟨cells0, hb, hlen, hs, hc⟩ := hwf
    unfold RK_INIT_CAPACITY at hc
    refine ⟨hc, ?_, ?_, ?_⟩
    · by_cases hlt : o.size < o.capacity
      · simp only [rkDebugOverlayEnsureSpace, if_pos hlt]
        exact hlt
      · simp only [rkDebugOverlayEnsureSpace, if_neg hlt]
        omega
    · intro cells hcells
      by_cases hlt : o.size < o.capacity
      · simp only [rkDebugOverlayEnsureSpace, if_pos hlt] at hcells ⊢
        rw [hb] at hcells
        cases hcells
        exact ⟨hlen, by omega⟩
      · simp only [rkDebugOverlayEnsureSpace, if_neg hlt] at hcells ⊢
        cases outcome with
        | none => simp [realloc] at hcells
        | some junk =>
          obtain ⟨cells', hr', hlen'⟩ :=
            realloc_granted_length o.buffer (3 * o.capacity / 2) junk
          rw [hr'] at hcells
          cases hcells
          exact ⟨hlen', by omega⟩
    · intro _ junk
      obtain ⟨cells', _, -, he, -, hlt, -⟩ := rkDebugOverlayEnsureSpace_wellFormed o junk hwf0
      rw [he]
      exact ⟨cells', rfl, hlt⟩
  · obtain ⟨hb, hs, hc⟩ := hno
    have hlt : o.size < o.capacity := by rw [hs, hc]; decide
    refine ⟨by rw [hc]; decide, ?_, ?_, ?_⟩
    · simp only [rkDebugOverlayEnsureSpace, if_pos hlt]
      exact hlt
    · intro cells hcells
      simp only [rkDebugOverlayEnsureSpace, if_pos hlt] at hcells
      rw [hb] at hcells
      cases hcells
    · intro h
      rw [hb] at h
      cases h

/-- Witness of C16: the sample overlay whose eight cells are all in use. -/
theorem C16_room_for_one_more_witness :
    Reachable sampleFull ∧
    8 ≤ sampleFull.capacity ∧
    (rkDebugOverlayEnsureSpace sampleFull (some [])).size <
      (rkDebugOverlayEnsureSpace sampleFull (some [])).capacity ∧
    (∀ cells, (rkDebugOverlayEnsureSpace sampleFull (some [])).buffer = some cells →
      cells.length = (rkDebugOverlayEnsureSpace sampleFull (some [])).capacity ∧
      (rkDebugOverlayEnsureSpace sampleFull (some [])).size < cells.length) ∧
    (sampleFull.buffer.isSome → ∀ junk, ∃ cells,
      (rkDebugOverlayEnsureSpace sampleFull (some junk)).buffer = some cells ∧
      (rkDebugOverlayEnsureSpace sampleFull (some junk)).size < cells.length) :=
  ⟨sampleFull_reachable, C16_room_for_one_more sampleFull (some []) sampleFull_reachable⟩

/-! ## The capacity sequence -/

theorem capacitySequence_ge (i : Nat) : 8 ≤ capacitySequence i := by
  induction i with
  | zero => exact Nat.le_refl _
  | succ i ih =>
    show 8 ≤ 3 * capacitySequence i / 2
    omega

theorem capacitySequence_lt_succ (i : Nat) : capacitySequence i < capacitySequence (i + 1) := by
  have h := capacitySequence_ge i
  show capacitySequence i < 3 * capacitySequence i / 2
  omega

theorem capacitySequence_mono {i j : Nat} (h : i ≤ j) :
    capacitySequence i ≤ capacitySequence j := by
  induction j with
  | zero =>
    have : i = 0 := by omega
    subst this
    exact Nat.le_refl _
  | succ j ih =>
    rcases Nat.eq_or_lt_of_le h with heq | hlt
    · subst heq
      exact Nat.le_refl _
    · exact Nat.le_trans (ih (by omega)) (Nat.le_of_lt (capacitySequence_lt_succ j))

theorem capacitySequence_values :
    capacitySequence 0 = 8 ∧ capacitySequence 1 = 12 ∧ capacitySequence 2 = 18 ∧
      capacitySequence 3 = 27 ∧ capacitySequence 4 = 40 := by
  decide

/-- Successive granted appends keep the capacity on the sequence, at its least term
that is not below the entry count. -/
theorem appendAll_capacity (calls : List Append) :
    ∀ (o : rkDebugOverlay) (i : Nat), WellFormed o → o.capacity = capacitySequence i →
      (∀ j, o.size ≤ capacitySequence j → capacitySequence i ≤ capacitySequence j) →
      ∀ last, appendAll o calls = some last →
        ∃ k, last.capacity = capacitySequence k ∧
          ∀ j, last.size ≤ capacitySequence j → capacitySequence k ≤ capacitySequence j := by
  induction calls with
  | nil =>
    intro o i _ hcap hleast last hl
    simp only [appendAll, Option.some.injEq] at hl
    subst hl
    exact ⟨i, hcap, hleast⟩
  | cons a rest ih =>
    intro o i hwf hcap hleast last hl
    obtain ⟨next, hn, hwf1, hsz1, hcap1, -⟩ := rkAddDebugTextArgs_wellFormed o a.1 a.2 hwf
    simp only [appendAll, hn] at hl
    have hs : o.size ≤ o.capacity := by
      obtain ⟨_, -, -, hs, -⟩ := hwf
      exact hs
    by_cases hlt : o.size < o.capacity
    · rw [if_pos hlt] at hcap1
      refine ih next i hwf1 (by rw [hcap1, hcap]) ?_ last hl
      intro j hj
      exact hleast j (by omega)
    · rw [if_neg hlt] at hcap1
      refine ih next (i + 1) hwf1 (by rw [hcap1, hcap]; rfl) ?_ last hl
      intro j hj
      have hij : i < j := by
        by_contra hge
        have := capacitySequence_mono (Nat.not_lt.1 hge)
        omega
      exact capacitySequence_mono hij

/-- C17: after `n` granted appends with no clear on a fresh overlay, the capacity is
a term of the sequence `8, 12, 18, 27, 40, ...` (each term the former one times 3,
halved, rounded down) that is at least `n`, and no term that is at least `n` is
smaller. -/
theorem C17_capacity_is_least_term (fontSize : Int) (calls : List Append) :
    ∃ o last k, rkCreateDebugOverlay true true fontSize = some o ∧
      appendAll o calls = some last ∧
      last.capacity = capacitySequence k ∧
      calls.length ≤ capacitySequence k ∧
      ∀ j, calls.length ≤ capacitySequence j → capacitySequence k ≤ capacitySequence j := by
  obtain ⟨o, hc, hwf, hsz, hcap, hpos, -⟩ := rkCreateDebugOverlay_wellFormed fontSize
  rw [RK_INIT_POS_eq] at hpos
  obtain ⟨last, hl, hwfl, hszl, -⟩ :=
    appendAll_wellFormed calls o hwf (by rw [hpos]; decide)
  rw [hsz, Nat.zero_add] at hszl
  obtain ⟨k, hk, hleast⟩ := appendAll_capacity calls o 0 hwf hcap
    (fun j _ => capacitySequence_mono (Nat.zero_le j)) last hl
  rw [hszl] at hleast
  refine ⟨o, last, k, hc, hl, hk, ?_, hleast⟩
  obtain ⟨_, -, -, hs, -⟩ := hwfl
  rw [← hk, ← hszl]
  exact hs

end Rkdbg
